import Mathlib

/-!
Shallow embedding of the dot-bracket core of the `gadget` repository
(`src/rna_structure/`): the diagnostic validator
(`structure_validator.py:analyze_structure`), the structural feature
analyzer (`example.py:analyze_rna_structure`) and the sequence designer
(`rna_designer.py:RNADesigner`).  Dot-bracket strings are embedded as
`List Char`; Python ints are `Nat` (all quantities here are non-negative
indices or counts); the float GC-content ratio is embedded as `ℚ`;
Python's module-level random source is embedded as an explicit stream
`g : Nat → Nat` of draws together with a cursor that each random call
advances.
-/

namespace RnaGadget

/-- Bracket-matching scan shared verbatim by all three source files
(`structure_validator.py` lines 29-47, `example.py` lines 100-108,
`rna_designer.py` lines 94-102): walk the string left to right carrying the
running index `i`, push the index of every `'('`, and on `')'` either pop the
matching index and append the pair `(popped, i)` to the discovery-ordered
pair list, or, when the stack is empty, append `i` to the unmatched-close
list (the validator turns that list into issues; the analyzer and designer
silently skip such closes).  Returns (final stack, pairs, unmatched closes). -/
def scanLoop : List Char → Nat → List Nat → List (Nat × Nat) → List Nat →
    List Nat × List (Nat × Nat) × List Nat
  | [], _, stack, pairs, uc => (stack, pairs, uc)
  | c :: rest, i, stack, pairs, uc =>
    if c = '(' then
      scanLoop rest (i + 1) (i :: stack) pairs uc
    else if c = ')' then
      match stack with
      | [] => scanLoop rest (i + 1) [] pairs (uc ++ [i])
      | a :: stack => scanLoop rest (i + 1) stack (pairs ++ [(a, i)]) uc
    else
      scanLoop rest (i + 1) stack pairs uc

/-- Discovery-ordered matched pairs of a dot-bracket string: the
`stack_trace` list of `structure_validator.analyze_structure`, and equally
the `pairs` list built by `example.analyze_rna_structure` and the
`paired_positions` list of `RNADesigner.design_structure`. -/
def matchPairs (s : List Char) : List (Nat × Nat) :=
  (scanLoop s 0 [] [] []).2.1

/-- Open-bracket indexes still on the stack when the scan ends. -/
def finalStack (s : List Char) : List Nat :=
  (scanLoop s 0 [] [] []).1

/-- Positions of closing brackets encountered while the stack was empty. -/
def unmatchedCloses (s : List Char) : List Nat :=
  (scanLoop s 0 [] [] []).2.2

/-- Positions mentioned by a pair list, lefts and rights interleaved. -/
def posList (ps : List (Nat × Nat)) : List Nat :=
  ps.flatMap fun p => [p.1, p.2]

/-- Structured issues of `structure_validator.analyze_structure`; in the
Python source each is a formatted message string, embedded here by the data
the message carries.  The `invalidChars` payload embeds the Python set
`set(structure) - set('.()')` as the deduplicated list of offending
characters in order of first appearance. -/
inductive Issue where
  | invalidChars (chars : List Char)
  | unmatchedClose (pos : Nat)
  | unmatchedOpen (positions : List Nat)
  | unbalanced (opening closing : Nat)
deriving DecidableEq

/-- Deduplicated characters of `s` outside the dot-bracket alphabet:
the content of Python's `set(structure) - set('.()')`. -/
def invalidCharsOf (s : List Char) : List Char :=
  (s.filter fun c => !(c == '.' || c == '(' || c == ')')).dedup

/-- Result dictionary of `structure_validator.analyze_structure`. -/
structure AnalyzeResult where
  valid : Bool
  length : Nat
  dots : Nat
  opening_brackets : Nat
  closing_brackets : Nat
  issues : List Issue
  stack_trace : List (Nat × Nat)
deriving DecidableEq

/-- Embedding of `structure_validator.analyze_structure` (lines 5-57): scan
with `scanLoop`, count the three symbol kinds, and assemble the issue list in
the order the Python code appends: the invalid-character issue first
(computed before the loop), one unmatched-close issue per offending `')'` in
scan order, then the unmatched-open issue (stack printed bottom-first, hence
the reverse), then the unbalanced-count issue.  `valid` is the conjunction of
the four checks that each clear it. -/
def analyze_structure (s : List Char) : AnalyzeResult :=
  let inv := invalidCharsOf s
  let r := scanLoop s 0 [] [] []
  let opening := s.count '('
  let closing := s.count ')'
  { valid := inv.isEmpty && r.2.2.isEmpty && r.1.isEmpty && (opening == closing)
    length := s.length
    dots := s.count '.'
    opening_brackets := opening
    closing_brackets := closing
    issues :=
      (if inv.isEmpty then [] else [Issue.invalidChars inv])
        ++ r.2.2.map Issue.unmatchedClose
        ++ (if r.1.isEmpty then [] else [Issue.unmatchedOpen r.1.reverse])
        ++ (if opening == closing then [] else [Issue.unbalanced opening closing])
    stack_trace := r.2.1 }

/-- Feature-count dictionary of `example.analyze_rna_structure`, with the
fixed key set the Python code initializes (lines 83-93). -/
structure Features where
  total_length : Nat
  paired_bases : Nat
  unpaired_bases : Nat
  hairpin_loops : Nat
  internal_loops : Nat
  bulges : Nat
  stems : Nat
  multiloops : Nat
  external_loops : Nat
deriving DecidableEq

/-- Stem-grouping loop of `example.analyze_rna_structure` (lines 112-128):
walk the discovery-ordered pair list; the current pair extends the current
stem run iff its left is the previous pair's left plus one and its right is
the previous pair's right minus one, otherwise it closes the current stem and
starts a new one.  `q.2 + 1 = prev.2` states `q.2 = prev.2 - 1` without the
truncation of natural subtraction, matching Python's exact integers. -/
def stemsGo : List (Nat × Nat) → Nat × Nat → List (Nat × Nat) →
    List (List (Nat × Nat)) → List (List (Nat × Nat))
  | [], _, cur, acc => acc ++ [cur]
  | q :: rest, prev, cur, acc =>
    if q.1 = prev.1 + 1 ∧ q.2 + 1 = prev.2 then
      stemsGo rest q (cur ++ [q]) acc
    else
      stemsGo rest q [q] (acc ++ [cur])

/-- Stems of a pair list: empty when there are no pairs (`features['stems']`
stays 0), else the grouping loop seeded with the first pair. -/
def stemsOf : List (Nat × Nat) → List (List (Nat × Nat))
  | [] => []
  | p :: rest => stemsGo rest p [p] []

/-- Per-stem loop classification of `example.analyze_rna_structure`
(lines 132-148): look strictly between the innermost pair of the stem; when
that region exists and holds no bracket it is a hairpin loop, when it holds a
bracket it is counted as an internal loop.  Returns (hairpin, internal)
increments. -/
def hairpinOrInternal (s : List Char) (stem : List (Nat × Nat)) : Nat × Nat :=
  match stem.getLast? with
  | none => (0, 0)
  | some inner =>
    let loop_start := inner.1 + 1
    let loop_end := inner.2 - 1
    if loop_start ≤ loop_end then
      let seq := (s.drop loop_start).take (loop_end + 1 - loop_start)
      if '(' ∈ seq ∨ ')' ∈ seq then (0, 1) else (1, 0)
    else (0, 0)

/-- Sum of the per-stem loop classifications over all stems. -/
def loopCounts (s : List Char) : List (List (Nat × Nat)) → Nat × Nat
  | [] => (0, 0)
  | stem :: rest =>
    let c := hairpinOrInternal s stem
    let r := loopCounts s rest
    (c.1 + r.1, c.2 + r.2)

/-- Gap classification between consecutive stems of
`example.analyze_rna_structure` (lines 151-164): the gap runs from the last
pair's left plus one of one stem to the first pair's left minus one of the
next; a non-empty gap of length at most three counts as a bulge, longer as an
internal loop.  Returns (bulge, internal) increments summed over all
consecutive stem pairs.  The natural subtraction `firstp.1 - 1` agrees with
Python's `- 1` because a truncated value 0 lies below `gap_start ≥ 1` exactly
when Python's `-1` does. -/
def gapsGo : List (List (Nat × Nat)) → Nat × Nat
  | [] => (0, 0)
  | [_] => (0, 0)
  | s1 :: s2 :: rest =>
    let g :=
      match s1.getLast?, s2.head? with
      | some lastp, some firstp =>
        let gap_start := lastp.1 + 1
        let gap_end := firstp.1 - 1
        if gap_start ≤ gap_end then
          if gap_end - gap_start + 1 ≤ 3 then (1, 0) else (0, 1)
        else (0, 0)
      | _, _ => (0, 0)
    let r := gapsGo (s2 :: rest)
    (g.1 + r.1, g.2 + r.2)

/-- External-loop count of `example.analyze_rna_structure` (lines 166-179):
one external region when the first `'('` sits after position 0 or the last
`')'` sits before the final position, also one when either bracket kind is
absent altogether, else zero.  `find`/`rfind` of the Python source are
embedded as forward search and backward search via the reversed list. -/
def externalCount (s : List Char) : Nat :=
  let first? := s.findIdx? fun c => c == '('
  let last? := (s.reverse.findIdx? fun c => c == ')').map fun k => s.length - 1 - k
  match first?, last? with
  | some f, some l => if 0 < f ∨ l < s.length - 1 then 1 else 0
  | _, _ => 1

/-- Embedding of `example.analyze_rna_structure` (lines 69-181): `none` for
the empty string (Python returns `{}`), else the feature record.  Internal
loops accumulate from both the per-stem classification and the inter-stem gap
classification, exactly as the two Python passes add into the same counter;
multiloops are never incremented. -/
def analyze_rna_structure (s : List Char) : Option Features :=
  if s = [] then none
  else
    let pairs := matchPairs s
    let stems := stemsOf pairs
    let lc := loopCounts s stems
    let gc := gapsGo stems
    some ⟨s.length,
          s.count '(' + s.count ')',
          s.count '.',
          lc.1,
          lc.2 + gc.2,
          gc.1,
          stems.length,
          0,
          externalCount s⟩

/-- Errors raised by `RNADesigner._validate_params` (lines 49-66), each
embedded with exactly the data its `ValueError` message carries: the
invalid-character message interpolates the character alone, the
unmatched-bracket and length messages carry no data. -/
inductive DesignError where
  | lengthMismatch
  | unmatchedBrackets
  | invalidChar (c : Char)
deriving DecidableEq

/-- Bracket check of `RNADesigner._validate_params` (lines 54-66): scan the
pattern with a stack, failing on the first closing bracket with an empty
stack or the first character outside the three-symbol alphabet, and failing
at the end when opens remain.  `some e` embeds `raise ValueError`, `none`
embeds falling through. -/
def checkPattern : List Char → List Char → Option DesignError
  | [], stack => if stack.isEmpty then none else some .unmatchedBrackets
  | c :: rest, stack =>
    if c = '(' then
      checkPattern rest ('(' :: stack)
    else if c = ')' then
      match stack with
      | [] => some .unmatchedBrackets
      | _ :: stack => checkPattern rest stack
    else if c ≠ '.' then
      some (.invalidChar c)
    else
      checkPattern rest stack

/-- Embedding of `RNADesigner._validate_params` (lines 49-66): the length
comparison first, then the bracket scan. -/
def validate_params (sequence_length : Nat) (pattern : List Char) : Option DesignError :=
  if pattern.length ≠ sequence_length then some .lengthMismatch
  else checkPattern pattern []

/-- Base alphabet `RNADesigner.UNPAIRED_BASES`. -/
def UNPAIRED_BASES : List Char := ['A', 'C', 'G', 'U']

/-- Pair table `RNADesigner.BASE_PAIRS` with its relative energies (the
float energies -3.0 and -2.0 are integral and embedded as `Int`). -/
def BASE_PAIRS : List ((Char × Char) × Int) :=
  [(('G', 'C'), -3), (('C', 'G'), -3), (('A', 'U'), -2), (('U', 'A'), -2)]

/-- Embedding of `RNADesigner._select_random_unpaired_base` (lines 68-70):
`random.choice` over the four bases consumes one draw, used modulo 4. -/
def select_random_unpaired_base (g : Nat → Nat) (k : Nat) : Char × Nat :=
  (UNPAIRED_BASES.getD (g k % 4) 'A', k + 1)

/-- Embedding of `RNADesigner._select_base_pair` (lines 72-82): one draw for
`random.random() < 0.7` (embedded as a decile test on the draw) selecting the
GC/CG family against the AU/UA family, then one draw for `random.choice`
between the two orientations. -/
def select_base_pair (g : Nat → Nat) (k : Nat) : (Char × Char) × Nat :=
  let r := g k
  let c := g (k + 1)
  if r % 10 < 7 then
    (if c % 2 = 0 then ('G', 'C') else ('C', 'G'), k + 2)
  else
    (if c % 2 = 0 then ('A', 'U') else ('U', 'A'), k + 2)

/-- Second pass of `RNADesigner.design_structure` (lines 104-108): fill each
discovered pair with a drawn complementary pair, 5' base at the left
position, 3' base at the right. -/
def fillPairs (g : Nat → Nat) : List (Nat × Nat) → List Char → Nat → List Char × Nat
  | [], seq, k => (seq, k)
  | (a, b) :: rest, seq, k =>
    let r := select_base_pair g k
    fillPairs g rest ((seq.set a r.1.1).set b r.1.2) r.2

/-- Third pass of `RNADesigner.design_structure` (lines 110-113): fill every
dot position, in order, with a uniformly drawn base.  `i` is the index of the
head of the remaining pattern `cs` in the full pattern. -/
def fillUnpaired (g : Nat → Nat) : List Char → Nat → List Char → Nat → List Char
  | [], _, seq, _ => seq
  | c :: rest, i, seq, k =>
    if c = '.' then
      let r := select_random_unpaired_base g k
      fillUnpaired g rest (i + 1) (seq.set i r.1) r.2
    else
      fillUnpaired g rest (i + 1) seq k

/-- Embedding of `RNADesigner.design_structure` (lines 84-115): start from a
length-matching list of placeholder `'N'`s, find the paired positions with
the shared scan, fill pairs, then fill unpaired positions, threading the draw
cursor through both passes exactly as the Python passes consume the shared
random stream. -/
def design_structure (pattern : List Char) (g : Nat → Nat) : List Char :=
  let seq0 := List.replicate pattern.length 'N'
  let fp := fillPairs g (matchPairs pattern) seq0 0
  fillUnpaired g pattern 0 fp.1 fp.2

/-- Result dictionary of `RNADesigner.get_structure_info`. -/
structure StructureInfo where
  sequence : List Char
  structure_pattern : List Char
  length : Nat
  gc_content : Option ℚ
  paired_positions : Nat
deriving DecidableEq

/-- Embedding of `RNADesigner.get_structure_info` (lines 117-133).  The
Python division `(count G + count C) / len(sequence)` is unguarded and raises
`ZeroDivisionError` on a length-0 sequence; the fault is embedded as `none`,
a defined quotient as `some`.  `paired_positions` counts `'('` in the
designed base sequence, exactly as the source line 132 does. -/
def get_structure_info (pattern seq : List Char) : StructureInfo :=
  { sequence := seq
    structure_pattern := pattern
    length := seq.length
    gc_content :=
      if seq.length = 0 then none
      else some (((seq.count 'G' : ℚ) + (seq.count 'C' : ℚ)) / (seq.length : ℚ))
    paired_positions := seq.count '(' }

/-! Invariants of the shared bracket-matching scan. -/

theorem mem_posList {t : Nat} {ps : List (Nat × Nat)} :
    t ∈ posList ps ↔ ∃ p ∈ ps, t = p.1 ∨ t = p.2 := by
  simp [posList, List.mem_flatMap]

theorem posList_append (ps qs : List (Nat × Nat)) :
    posList (ps ++ qs) = posList ps ++ posList qs := by
  simp [posList]

theorem posList_lt {i : Nat} {ps : List (Nat × Nat)}
    (h : ∀ p ∈ ps, p.1 < p.2 ∧ p.2 < i) : ∀ t ∈ posList ps, t < i := by
  intro t ht
  obtain ⟨p, hp, hor⟩ := mem_posList.mp ht
  rcases hor with rfl | rfl
  · exact (h p hp).1.trans (h p hp).2
  · exact (h p hp).2

theorem getElem?_mem_list {α : Type} {l : List α} {n : Nat} {a : α}
    (h : l[n]? = some a) : a ∈ l := by
  obtain ⟨h1, h2⟩ := List.getElem?_eq_some_iff.mp h
  exact h2 ▸ List.getElem_mem h1

theorem drop_rel {α : Type} :
    ∀ (s : List α) (i : Nat) (c : α) (rest : List α),
      s.drop i = c :: rest → s[i]? = some c ∧ s.drop (i + 1) = rest := by
  intro s i c rest h
  constructor
  · have := List.getElem?_drop s i 0
    rw [h] at this
    simpa using this.symm
  · have := List.drop_drop 1 i s
    rw [h] at this
    simpa using this.symm

/-- Invariant of `scanLoop` after processing the first `i` characters of
`s`, with current stack `st`, recorded pairs `ps` and unmatched-close
positions `uc`: the stack holds strictly decreasing opening positions; every
recorded pair opens before it closes, within the processed region, at an
opening and a closing bracket respectively; earlier-recorded pairs are nested
inside or lie entirely left of later ones and close strictly earlier; no
position is used twice; stack positions are separated from every recorded
pair; and every processed bracket is accounted for by the stack, the pairs,
or the unmatched-close list. -/
structure ScanInv (s : List Char) (i : Nat) (st : List Nat)
    (ps : List (Nat × Nat)) (uc : List Nat) : Prop where
  stack_lt : ∀ t ∈ st, t < i
  stack_dec : st.Pairwise fun a b => b < a
  stack_open : ∀ t ∈ st, s[t]? = some '('
  pairs_lt : ∀ p ∈ ps, p.1 < p.2 ∧ p.2 < i
  pairs_chars : ∀ p ∈ ps, s[p.1]? = some '(' ∧ s[p.2]? = some ')'
  nested : ps.Pairwise fun p q => (q.1 < p.1 ∨ p.2 < q.1) ∧ p.2 < q.2
  flat_nodup : (posList ps).Nodup
  disj : ∀ t ∈ st, t ∉ posList ps
  sep : ∀ t ∈ st, ∀ p ∈ ps, t < p.1 ∨ p.2 < t
  uc_lt : ∀ t ∈ uc, t < i
  cov_open : ∀ t, t < i → s[t]? = some '(' → t ∈ st ∨ t ∈ ps.map Prod.fst
  cov_close : ∀ t, t < i → s[t]? = some ')' → t ∈ ps.map Prod.snd ∨ t ∈ uc

theorem ScanInv.step_open {s : List Char} {i : Nat} {st : List Nat}
    {ps : List (Nat × Nat)} {uc : List Nat}
    (h : ScanInv s i st ps uc) (hci : s[i]? = some '(') :
    ScanInv s (i + 1) (i :: st) ps uc := by
  have hflt : ∀ t ∈ posList ps, t < i := posList_lt h.pairs_lt
  refine ⟨?_, ?_, ?_, ?_, ?_, h.nested, h.flat_nodup, ?_, ?_, ?_, ?_, ?_⟩
  · intro t ht
    rcases List.mem_cons.mp ht with rfl | ht'
    · omega
    · exact (h.stack_lt t ht').trans (Nat.lt_succ_self i)
  · exact List.pairwise_cons.mpr ⟨fun b hb => h.stack_lt b hb, h.stack_dec⟩
  · intro t ht
    rcases List.mem_cons.mp ht with rfl | ht'
    · exact hci
    · exact h.stack_open t ht'
  · intro p hp
    exact ⟨(h.pairs_lt p hp).1, (h.pairs_lt p hp).2.trans (Nat.lt_succ_self i)⟩
  · exact h.pairs_chars
  · intro t ht
    rcases List.mem_cons.mp ht with rfl | ht'
    · intro hmem
      exact absurd (hflt t hmem) (lt_irrefl t)
    · exact h.disj t ht'
  · intro t ht p hp
    rcases List.mem_cons.mp ht with rfl | ht'
    · exact Or.inr (h.pairs_lt p hp).2
    · exact h.sep t ht' p hp
  · intro t ht
    exact (h.uc_lt t ht).trans (Nat.lt_succ_self i)
  · intro t ht hop
    rcases Nat.lt_succ_iff_lt_or_eq.mp ht with ht' | rfl
    · rcases h.cov_open t ht' hop with hst | hps
      · exact Or.inl (List.mem_cons_of_mem i hst)
      · exact Or.inr hps
    · exact Or.inl (List.mem_cons_self t st)
  · intro t ht hcl
    rcases Nat.lt_succ_iff_lt_or_eq.mp ht with ht' | rfl
    · exact h.cov_close t ht' hcl
    · rw [hci] at hcl
      exact absurd (Option.some.inj hcl) (by decide)

theorem ScanInv.step_other {s : List Char} {i : Nat} {st : List Nat}
    {ps : List (Nat × Nat)} {uc : List Nat} {c : Char}
    (h : ScanInv s i st ps uc) (hci : s[i]? = some c)
    (h1 : c ≠ '(') (h2 : c ≠ ')') : ScanInv s (i + 1) st ps uc := by
  refine ⟨?_, h.stack_dec, h.stack_open, ?_, h.pairs_chars, h.nested,
    h.flat_nodup, h.disj, h.sep, ?_, ?_, ?_⟩
  · intro t ht
    exact (h.stack_lt t ht).trans (Nat.lt_succ_self i)
  · intro p hp
    exact ⟨(h.pairs_lt p hp).1, (h.pairs_lt p hp).2.trans (Nat.lt_succ_self i)⟩
  · intro t ht
    exact (h.uc_lt t ht).trans (Nat.lt_succ_self i)
  · intro t ht hop
    rcases Nat.lt_succ_iff_lt_or_eq.mp ht with ht' | rfl
    · exact h.cov_open t ht' hop
    · rw [hci] at hop
      exact absurd (Option.some.inj hop) h1
  · intro t ht hcl
    rcases Nat.lt_succ_iff_lt_or_eq.mp ht with ht' | rfl
    · exact h.cov_close t ht' hcl
    · rw [hci] at hcl
      exact absurd (Option.some.inj hcl) h2

theorem ScanInv.step_uc {s : List Char} {i : Nat}
    {ps : List (Nat × Nat)} {uc : List Nat}
    (h : ScanInv s i [] ps uc) (hci : s[i]? = some ')') :
    ScanInv s (i + 1) [] ps (uc ++ [i]) := by
  refine ⟨by simp, by simp, by simp, ?_, h.pairs_chars, h.nested,
    h.flat_nodup, by simp, by simp, ?_, ?_, ?_⟩
  · intro p hp
    exact ⟨(h.pairs_lt p hp).1, (h.pairs_lt p hp).2.trans (Nat.lt_succ_self i)⟩
  · intro t ht
    rcases List.mem_append.mp ht with ht' | ht'
    · exact (h.uc_lt t ht').trans (Nat.lt_succ_self i)
    · simp at ht'
      omega
  · intro t ht hop
    rcases Nat.lt_succ_iff_lt_or_eq.mp ht with ht' | rfl
    · exact h.cov_open t ht' hop
    · rw [hci] at hop
      exact absurd (Option.some.inj hop) (by decide)
  · intro t ht hcl
    rcases Nat.lt_succ_iff_lt_or_eq.mp ht with ht' | rfl
    · rcases h.cov_close t ht' hcl with hps | huc
      · exact Or.inl hps
      · exact Or.inr (List.mem_append.mpr (Or.inl huc))
    · exact Or.inr (List.mem_append.mpr (Or.inr (List.mem_cons_self t [])))

theorem ScanInv.step_pop {s : List Char} {i a : Nat} {st : List Nat}
    {ps : List (Nat × Nat)} {uc : List Nat}
    (h : ScanInv s i (a :: st) ps uc) (hci : s[i]? = some ')') :
    ScanInv s (i + 1) st (ps ++ [(a, i)]) uc := by
  have ha_lt : a < i := h.stack_lt a (List.mem_cons_self a st)
  have ha_open : s[a]? = some '(' := h.stack_open a (List.mem_cons_self a st)
  have ha_notflat : a ∉ posList ps := h.disj a (List.mem_cons_self a st)
  have hflt : ∀ t ∈ posList ps, t < i := posList_lt h.pairs_lt
  have hdec := List.pairwise_cons.mp h.stack_dec
  have hpos : posList (ps ++ [(a, i)]) = posList ps ++ [a, i] := by
    rw [posList_append]; rfl
  refine ⟨?_, hdec.2, ?_, ?_, ?_, ?_, ?_, ?_, ?_, ?_, ?_, ?_⟩
  · intro t ht
    exact (h.stack_lt t (List.mem_cons_of_mem a ht)).trans (Nat.lt_succ_self i)
  · intro t ht
    exact h.stack_open t (List.mem_cons_of_mem a ht)
  · intro p hp
    rcases List.mem_append.mp hp with hp' | hp'
    · exact ⟨(h.pairs_lt p hp').1, (h.pairs_lt p hp').2.trans (Nat.lt_succ_self i)⟩
    · simp at hp'
      subst hp'
      exact ⟨ha_lt, Nat.lt_succ_self i⟩
  · intro p hp
    rcases List.mem_append.mp hp with hp' | hp'
    · exact h.pairs_chars p hp'
    · simp at hp'
      subst hp'
      exact ⟨ha_open, hci⟩
  · refine List.pairwise_append.mpr ⟨h.nested, by simp, ?_⟩
    intro p hp q hq
    simp at hq
    subst hq
    exact ⟨h.sep a (List.mem_cons_self a st) p hp, (h.pairs_lt p hp).2⟩
  · rw [hpos]
    refine List.nodup_append.mpr ⟨h.flat_nodup, ?_, ?_⟩
    · simp
      omega
    · intro t ht
      simp only [List.mem_cons, List.not_mem_nil, or_false]
      rintro (rfl | rfl)
      · exact ha_notflat ht
      · exact absurd (hflt t ht) (lt_irrefl t)
  · intro t ht
    rw [hpos]
    rw [List.mem_append]
    rintro (hmem | hmem)
    · exact h.disj t (List.mem_cons_of_mem a ht) hmem
    · simp at hmem
      have h1 : t < a := hdec.1 t ht
      have h2 : t < i := h.stack_lt t (List.mem_cons_of_mem a ht)
      omega
  · intro t ht p hp
    rcases List.mem_append.mp hp with hp' | hp'
    · exact h.sep t (List.mem_cons_of_mem a ht) p hp'
    · simp at hp'
      subst hp'
      exact Or.inl (hdec.1 t ht)
  · intro t ht
    exact (h.uc_lt t ht).trans (Nat.lt_succ_self i)
  · intro t ht hop
    rcases Nat.lt_succ_iff_lt_or_eq.mp ht with ht' | rfl
    · rcases h.cov_open t ht' hop with hst | hps
      · rcases List.mem_cons.mp hst with rfl | hst'
        · refine Or.inr ?_
          rw [List.map_append, List.mem_append]
          exact Or.inr (by simp)
        · exact Or.inl hst'
      · refine Or.inr ?_
        rw [List.map_append, List.mem_append]
        exact Or.inl hps
    · rw [hci] at hop
      exact absurd (Option.some.inj hop) (by decide)
  · intro t ht hcl
    rcases Nat.lt_succ_iff_lt_or_eq.mp ht with ht' | rfl
    · rcases h.cov_close t ht' hcl with hps | huc
      · refine Or.inl ?_
        rw [List.map_append, List.mem_append]
        exact Or.inl hps
      · exact Or.inr huc
    · refine Or.inl ?_
      rw [List.map_append, List.mem_append]
      exact Or.inr (by simp)

theorem scanLoop_cons_open (rest : List Char) (i : Nat) (st : List Nat)
    (ps : List (Nat × Nat)) (uc : List Nat) :
    scanLoop ('(' :: rest) i st ps uc = scanLoop rest (i + 1) (i :: st) ps uc := by
  simp [scanLoop]

theorem scanLoop_cons_close_nil (rest : List Char) (i : Nat)
    (ps : List (Nat × Nat)) (uc : List Nat) :
    scanLoop (')' :: rest) i [] ps uc = scanLoop rest (i + 1) [] ps (uc ++ [i]) := by
  simp [scanLoop]

theorem scanLoop_cons_close_cons (rest : List Char) (i a : Nat) (st : List Nat)
    (ps : List (Nat × Nat)) (uc : List Nat) :
    scanLoop (')' :: rest) i (a :: st) ps uc
      = scanLoop rest (i + 1) st (ps ++ [(a, i)]) uc := by
  simp [scanLoop]

theorem scanLoop_cons_other (c : Char) (rest : List Char) (i : Nat) (st : List Nat)
    (ps : List (Nat × Nat)) (uc : List Nat) (h1 : c ≠ '(') (h2 : c ≠ ')') :
    scanLoop (c :: rest) i st ps uc = scanLoop rest (i + 1) st ps uc := by
  simp [scanLoop, h1, h2]

theorem scanLoop_inv (s : List Char) :
    ∀ (rest : List Char) (i : Nat) (st : List Nat) (ps : List (Nat × Nat)) (uc : List Nat),
      s.drop i = rest → ScanInv s i st ps uc →
      ScanInv s (i + rest.length) (scanLoop rest i st ps uc).1
        (scanLoop rest i st ps uc).2.1 (scanLoop rest i st ps uc).2.2 := by
  intro rest
  induction rest with
  | nil =>
    intro i st ps uc _ hinv
    simpa [scanLoop] using hinv
  | cons c rest ih =>
    intro i st ps uc hdrop hinv
    obtain ⟨hci, hdrop'⟩ := drop_rel s i c rest hdrop
    have hlen : i + (c :: rest).length = i + 1 + rest.length := by
      simp [List.length_cons]
      omega
    rw [hlen]
    by_cases hc1 : c = '('
    · subst hc1
      rw [scanLoop_cons_open]
      exact ih (i + 1) (i :: st) ps uc hdrop' (hinv.step_open hci)
    · by_cases hc2 : c = ')'
      · subst hc2
        cases st with
        | nil =>
          rw [scanLoop_cons_close_nil]
          exact ih (i + 1) [] ps (uc ++ [i]) hdrop' (hinv.step_uc hci)
        | cons a st' =>
          rw [scanLoop_cons_close_cons]
          exact ih (i + 1) st' (ps ++ [(a, i)]) uc hdrop' (hinv.step_pop hci)
      · rw [scanLoop_cons_other c rest i st ps uc hc1 hc2]
        exact ih (i + 1) st ps uc hdrop' (hinv.step_other hci hc1 hc2)

theorem ScanInv.start (s : List Char) : ScanInv s 0 [] [] [] := by
  refine ⟨?_, ?_, ?_, ?_, ?_, ?_, ?_, ?_, ?_, ?_, ?_, ?_⟩ <;> simp [posList]

/-- The scan invariant holds of the final scan state of any string. -/
theorem scan_inv (s : List Char) :
    ScanInv s s.length (finalStack s) (matchPairs s) (unmatchedCloses s) := by
  have h := scanLoop_inv s s 0 [] [] [] (by simp) (ScanInv.start s)
  simpa [finalStack, matchPairs, unmatchedCloses] using h

theorem matchPairs_rights (s : List Char) :
    (matchPairs s).Pairwise fun p q => p.2 < q.2 :=
  (scan_inv s).nested.imp fun h => h.2

theorem stemsGo_length :
    ∀ (rest : List (Nat × Nat)) (prev : Nat × Nat) (cur : List (Nat × Nat))
      (acc : List (List (Nat × Nat))),
      ((prev :: rest).Pairwise fun p q => p.2 < q.2) →
      (stemsGo rest prev cur acc).length = acc.length + 1 + rest.length := by
  intro rest
  induction rest with
  | nil =>
    intro prev cur acc _
    simp [stemsGo]
  | cons q rest ih =>
    intro prev cur acc h
    have h1 : prev.2 < q.2 := (List.pairwise_cons.mp h).1 q (List.mem_cons_self q rest)
    have h2 : (q :: rest).Pairwise fun p q => p.2 < q.2 := (List.pairwise_cons.mp h).2
    rw [stemsGo, if_neg (by omega)]
    rw [ih q [q] (acc ++ [cur]) h2]
    simp
    omega

theorem stemsOf_length {ps : List (Nat × Nat)}
    (h : ps.Pairwise fun p q => p.2 < q.2) : (stemsOf ps).length = ps.length := by
  cases ps with
  | nil => rfl
  | cons p rest =>
    rw [stemsOf, stemsGo_length rest p [p] [] h]
    simp
    omega

theorem checkPattern_cons_open (rest stack : List Char) :
    checkPattern ('(' :: rest) stack = checkPattern rest ('(' :: stack) := by
  simp [checkPattern]

theorem checkPattern_cons_close_cons (rest : List Char) (x : Char) (stack : List Char) :
    checkPattern (')' :: rest) (x :: stack) = checkPattern rest stack := by
  simp [checkPattern]

theorem checkPattern_cons_close_nil (rest : List Char) :
    checkPattern (')' :: rest) [] = some DesignError.unmatchedBrackets := by
  simp [checkPattern]

theorem checkPattern_cons_dot (rest stack : List Char) :
    checkPattern ('.' :: rest) stack = checkPattern rest stack := by
  simp [checkPattern]

theorem checkPattern_cons_bad (c : Char) (rest stack : List Char)
    (h1 : c ≠ '(') (h2 : c ≠ ')') (h3 : c ≠ '.') :
    checkPattern (c :: rest) stack = some (DesignError.invalidChar c) := by
  simp [checkPattern, h1, h2, h3]

theorem checkPattern_scan :
    ∀ (s : List Char) (stC : List Char) (i : Nat) (stN : List Nat)
      (ps : List (Nat × Nat)) (uc : List Nat),
      stC.length = stN.length → checkPattern s stC = none →
      (scanLoop s i stN ps uc).1 = [] ∧ (scanLoop s i stN ps uc).2.2 = uc ∧
      ∀ c ∈ s, c = '.' ∨ c = '(' ∨ c = ')' := by
  intro s
  induction s with
  | nil =>
    intro stC i stN ps uc hlen hok
    rw [checkPattern] at hok
    by_cases hE : stC.isEmpty
    · have hC : stC = [] := List.isEmpty_iff.mp hE
      subst hC
      have hN : stN = [] := List.length_eq_zero.mp hlen.symm
      subst hN
      exact ⟨rfl, rfl, by simp⟩
    · rw [if_neg hE] at hok
      exact absurd hok (by simp)
  | cons c rest ih =>
    intro stC i stN ps uc hlen hok
    by_cases hc1 : c = '('
    · subst hc1
      rw [checkPattern_cons_open] at hok
      rw [scanLoop_cons_open]
      obtain ⟨ha, hb, hc⟩ := ih ('(' :: stC) (i + 1) (i :: stN) ps uc (by simpa using hlen) hok
      refine ⟨ha, hb, ?_⟩
      intro d hd
      rcases List.mem_cons.mp hd with rfl | hd'
      · exact Or.inr (Or.inl rfl)
      · exact hc d hd'
    · by_cases hc2 : c = ')'
      · subst hc2
        cases stC with
        | nil =>
          rw [checkPattern_cons_close_nil] at hok
          exact absurd hok (by simp)
        | cons x stC =>
          cases stN with
          | nil => exact absurd hlen (by simp)
          | cons a stN =>
            rw [checkPattern_cons_close_cons] at hok
            rw [scanLoop_cons_close_cons]
            obtain ⟨ha, hb, hc⟩ :=
              ih stC (i + 1) stN (ps ++ [(a, i)]) uc (by simpa using hlen) hok
            refine ⟨ha, hb, ?_⟩
            intro d hd
            rcases List.mem_cons.mp hd with rfl | hd'
            · exact Or.inr (Or.inr rfl)
            · exact hc d hd'
      · by_cases hc3 : c = '.'
        · subst hc3
          rw [checkPattern_cons_dot] at hok
          rw [scanLoop_cons_other _ _ _ _ _ _ hc1 hc2]
          obtain ⟨ha, hb, hc⟩ := ih stC (i + 1) stN ps uc hlen hok
          refine ⟨ha, hb, ?_⟩
          intro d hd
          rcases List.mem_cons.mp hd with rfl | hd'
          · exact Or.inl rfl
          · exact hc d hd'
        · rw [checkPattern_cons_bad c rest stC hc1 hc2 hc3] at hok
          exact absurd hok (by simp)

/-- Success of the designer's own bracket check forces the shared scan to end
with an empty stack, no unmatched closes, and a three-symbol alphabet. -/
theorem checkPattern_ok (s : List Char) (h : checkPattern s [] = none) :
    finalStack s = [] ∧ unmatchedCloses s = [] ∧
      ∀ c ∈ s, c = '.' ∨ c = '(' ∨ c = ')' :=
  checkPattern_scan s [] 0 [] [] [] rfl h

/-- A pattern containing any character outside the three-symbol alphabet
makes the designer's bracket check raise some error, whatever the stack. -/
theorem checkPattern_fails :
    ∀ (s stack : List Char),
      (∃ c ∈ s, ¬ (c = '.' ∨ c = '(' ∨ c = ')')) →
      ∃ e, checkPattern s stack = some e := by
  intro s
  induction s with
  | nil =>
    intro stack h
    simp at h
  | cons c rest ih =>
    intro stack h
    by_cases hc1 : c = '('
    · subst hc1
      rw [checkPattern_cons_open]
      apply ih
      obtain ⟨d, hd, hbad⟩ := h
      rcases List.mem_cons.mp hd with rfl | hd'
      · exact absurd (Or.inr (Or.inl rfl)) hbad
      · exact ⟨d, hd', hbad⟩
    · by_cases hc2 : c = ')'
      · subst hc2
        cases stack with
        | nil => exact ⟨_, checkPattern_cons_close_nil rest⟩
        | cons x st =>
          rw [checkPattern_cons_close_cons]
          apply ih
          obtain ⟨d, hd, hbad⟩ := h
          rcases List.mem_cons.mp hd with rfl | hd'
          · exact absurd (Or.inr (Or.inr rfl)) hbad
          · exact ⟨d, hd', hbad⟩
      · by_cases hc3 : c = '.'
        · subst hc3
          rw [checkPattern_cons_dot]
          apply ih
          obtain ⟨d, hd, hbad⟩ := h
          rcases List.mem_cons.mp hd with rfl | hd'
          · exact absurd (Or.inl rfl) hbad
          · exact ⟨d, hd', hbad⟩
        · exact ⟨_, checkPattern_cons_bad c rest stack hc1 hc2 hc3⟩

theorem valid_iff (s : List Char) :
    (analyze_structure s).valid = true ↔
      invalidCharsOf s = [] ∧ unmatchedCloses s = [] ∧ finalStack s = [] ∧
        s.count '(' = s.count ')' := by
  simp only [analyze_structure, matchPairs, finalStack, unmatchedCloses,
    Bool.and_eq_true, List.isEmpty_iff, beq_iff_eq]
  tauto

theorem invalidCharsOf_eq_nil (s : List Char) (h : invalidCharsOf s = []) :
    ∀ c ∈ s, c = '.' ∨ c = '(' ∨ c = ')' := by
  intro c hc
  have hfil : (s.filter fun c => !(c == '.' || c == '(' || c == ')')) = [] := by
    by_contra hne
    obtain ⟨d, hd⟩ := List.exists_mem_of_ne_nil _ hne
    have : d ∈ invalidCharsOf s := by
      rw [invalidCharsOf, List.mem_dedup]
      exact hd
    rw [h] at this
    exact absurd this (List.not_mem_nil d)
  have := List.filter_eq_nil_iff.mp hfil c hc
  simp at this
  tauto

theorem posList_of_left {t : Nat} {ps : List (Nat × Nat)}
    (h : t ∈ ps.map Prod.fst) : t ∈ posList ps := by
  obtain ⟨p, hp, hpt⟩ := List.mem_map.mp h
  exact mem_posList.mpr ⟨p, hp, Or.inl hpt.symm⟩

theorem posList_of_right {t : Nat} {ps : List (Nat × Nat)}
    (h : t ∈ ps.map Prod.snd) : t ∈ posList ps := by
  obtain ⟨p, hp, hpt⟩ := List.mem_map.mp h
  exact mem_posList.mpr ⟨p, hp, Or.inr hpt.symm⟩

/-- On a string that scans cleanly, the paired positions are exactly the
non-dot positions. -/
theorem valid_coverage (s : List Char)
    (halpha : ∀ c ∈ s, c = '.' ∨ c = '(' ∨ c = ')')
    (hstack : finalStack s = []) (huc : unmatchedCloses s = []) :
    ∀ p, p < s.length → (p ∈ posList (matchPairs s) ↔ s[p]? ≠ some '.') := by
  intro p hp
  have inv := scan_inv s
  constructor
  · intro hmem hdot
    obtain ⟨pr, hpr, hor⟩ := mem_posList.mp hmem
    rcases hor with rfl | rfl
    · have hch := (inv.pairs_chars pr hpr).1
      rw [hdot] at hch
      exact absurd (Option.some.inj hch) (by decide)
    · have hch := (inv.pairs_chars pr hpr).2
      rw [hdot] at hch
      exact absurd (Option.some.inj hch) (by decide)
  · intro hne
    have hsome : s[p]? = some s[p] := List.getElem?_eq_getElem hp
    rcases halpha s[p] (List.getElem_mem hp) with hdot | hop | hcl
    · rw [hdot] at hsome
      exact absurd hsome hne
    · rw [hop] at hsome
      rcases inv.cov_open p hp hsome with hst | hps
      · rw [hstack] at hst
        exact absurd hst (List.not_mem_nil p)
      · exact posList_of_left hps
    · rw [hcl] at hsome
      rcases inv.cov_close p hp hsome with hps | hucm
      · exact posList_of_right hps
      · rw [huc] at hucm
        exact absurd hucm (List.not_mem_nil p)

theorem select_base_pair_mem (g : Nat → Nat) (k : Nat) :
    (select_base_pair g k).1 ∈ BASE_PAIRS.map Prod.fst := by
  rw [select_base_pair]
  split_ifs <;> simp [BASE_PAIRS]

theorem base_pair_chars {c d : Char}
    (h : (c, d) ∈ BASE_PAIRS.map Prod.fst) :
    c ∈ UNPAIRED_BASES ∧ d ∈ UNPAIRED_BASES := by
  simp [BASE_PAIRS] at h
  rcases h with ⟨rfl, rfl⟩ | ⟨rfl, rfl⟩ | ⟨rfl, rfl⟩ | ⟨rfl, rfl⟩ <;>
    simp [UNPAIRED_BASES]

theorem base_mem (m : Nat) : UNPAIRED_BASES.getD (m % 4) 'A' ∈ UNPAIRED_BASES := by
  have h : m % 4 = 0 ∨ m % 4 = 1 ∨ m % 4 = 2 ∨ m % 4 = 3 := by omega
  rcases h with h | h | h | h <;> simp [UNPAIRED_BASES, h]

theorem posList_cons (a b : Nat) (rest : List (Nat × Nat)) :
    posList ((a, b) :: rest) = a :: b :: posList rest := by
  simp [posList]

theorem fillPairs_length (g : Nat → Nat) :
    ∀ (ps : List (Nat × Nat)) (seq : List Char) (k : Nat),
      (fillPairs g ps seq k).1.length = seq.length := by
  intro ps
  induction ps with
  | nil => intro seq k; rfl
  | cons p rest ih =>
    intro seq k
    obtain ⟨a, b⟩ := p
    rw [fillPairs]
    rw [ih]
    simp

theorem fillPairs_untouched (g : Nat → Nat) :
    ∀ (ps : List (Nat × Nat)) (seq : List Char) (k p : Nat),
      p ∉ posList ps → (fillPairs g ps seq k).1[p]? = seq[p]? := by
  intro ps
  induction ps with
  | nil => intro seq k p _; rfl
  | cons pr rest ih =>
    intro seq k p hp
    obtain ⟨a, b⟩ := pr
    rw [posList_cons] at hp
    simp only [List.mem_cons, not_or] at hp
    rw [fillPairs]
    rw [ih _ _ _ hp.2.2]
    rw [List.getElem?_set_ne (fun h => hp.2.1 h.symm)]
    rw [List.getElem?_set_ne (fun h => hp.1 h.symm)]

theorem fillPairs_sound (g : Nat → Nat) :
    ∀ (ps : List (Nat × Nat)) (seq : List Char) (k : Nat),
      (posList ps).Nodup → (∀ pr ∈ ps, pr.1 < pr.2 ∧ pr.2 < seq.length) →
      ∀ pr ∈ ps, ∃ c d, (fillPairs g ps seq k).1[pr.1]? = some c ∧
        (fillPairs g ps seq k).1[pr.2]? = some d ∧
        (c, d) ∈ BASE_PAIRS.map Prod.fst := by
  intro ps
  induction ps with
  | nil =>
    intro seq k _ _ pr hpr
    exact absurd hpr (List.not_mem_nil pr)
  | cons hd rest ih =>
    intro seq k hnodup hbound pr hpr
    obtain ⟨a, b⟩ := hd
    rw [posList_cons] at hnodup
    have hna : a ∉ b :: posList rest := (List.nodup_cons.mp hnodup).1
    have hnodup' := (List.nodup_cons.mp hnodup).2
    have hnb : b ∉ posList rest := (List.nodup_cons.mp hnodup').1
    have hpl : (posList rest).Nodup := (List.nodup_cons.mp hnodup').2
    have hab : a < b := (hbound (a, b) (List.mem_cons_self _ _)).1
    have hblen : b < seq.length := (hbound (a, b) (List.mem_cons_self _ _)).2
    simp only [List.mem_cons, not_or] at hna
    rw [fillPairs]
    rcases List.mem_cons.mp hpr with rfl | hpr'
    · refine ⟨(select_base_pair g k).1.1, (select_base_pair g k).1.2, ?_, ?_, ?_⟩
      · rw [fillPairs_untouched g rest _ _ _ hna.2]
        rw [List.getElem?_set_ne (fun h => (by omega : a ≠ b) h.symm)]
        exact List.getElem?_set_self (by omega)
      · rw [fillPairs_untouched g rest _ _ _ hnb]
        exact List.getElem?_set_self (by simpa using hblen)
      · simpa using select_base_pair_mem g k
    · refine ih _ _ hpl ?_ pr hpr'
      intro q hq
      have := hbound q (List.mem_cons_of_mem _ hq)
      simpa using this

theorem fillUnpaired_cons (g : Nat → Nat) (c : Char) (rest : List Char) (i : Nat)
    (seq : List Char) (k : Nat) :
    fillUnpaired g (c :: rest) i seq k =
      if c = '.' then
        fillUnpaired g rest (i + 1) (seq.set i (select_random_unpaired_base g k).1)
          (select_random_unpaired_base g k).2
      else fillUnpaired g rest (i + 1) seq k := rfl

theorem fillUnpaired_length (g : Nat → Nat) :
    ∀ (cs : List Char) (i : Nat) (seq : List Char) (k : Nat),
      (fillUnpaired g cs i seq k).length = seq.length := by
  intro cs
  induction cs with
  | nil => intro i seq k; rfl
  | cons c rest ih =>
    intro i seq k
    rw [fillUnpaired_cons]
    by_cases hc : c = '.'
    · rw [if_pos hc, ih]
      simp
    · rw [if_neg hc, ih]

theorem fillUnpaired_lower (g : Nat → Nat) :
    ∀ (cs : List Char) (i : Nat) (seq : List Char) (k p : Nat), p < i →
      (fillUnpaired g cs i seq k)[p]? = seq[p]? := by
  intro cs
  induction cs with
  | nil => intro i seq k p _; rfl
  | cons c rest ih =>
    intro i seq k p hp
    rw [fillUnpaired_cons]
    by_cases hc : c = '.'
    · rw [if_pos hc, ih _ _ _ _ (by omega)]
      exact List.getElem?_set_ne (by omega)
    · rw [if_neg hc]
      exact ih _ _ _ _ (by omega)

theorem fillUnpaired_nondot (g : Nat → Nat) :
    ∀ (cs : List Char) (i : Nat) (seq : List Char) (k off : Nat) (c : Char),
      cs[off]? = some c → c ≠ '.' →
      (fillUnpaired g cs i seq k)[i + off]? = seq[i + off]? := by
  intro cs
  induction cs with
  | nil =>
    intro i seq k off c hoff _
    exact absurd hoff (by simp)
  | cons c0 rest ih =>
    intro i seq k off c hoff hc
    rw [fillUnpaired_cons]
    cases off with
    | zero =>
      simp only [List.getElem?_cons_zero] at hoff
      have hc0 : c0 = c := Option.some.inj hoff
      subst hc0
      rw [if_neg hc]
      rw [fillUnpaired_lower g rest (i + 1) seq k (i + 0) (by omega)]
    | succ off =>
      simp only [List.getElem?_cons_succ] at hoff
      have heq : i + (off + 1) = i + 1 + off := by omega
      rw [heq]
      by_cases hc0 : c0 = '.'
      · rw [if_pos hc0, ih _ _ _ _ _ hoff hc]
        exact List.getElem?_set_ne (by omega)
      · rw [if_neg hc0]
        exact ih _ _ _ _ _ hoff hc

theorem fillUnpaired_dot (g : Nat → Nat) :
    ∀ (cs : List Char) (i : Nat) (seq : List Char) (k off : Nat),
      cs[off]? = some '.' → i + off < seq.length →
      ∃ c, (fillUnpaired g cs i seq k)[i + off]? = some c ∧ c ∈ UNPAIRED_BASES := by
  intro cs
  induction cs with
  | nil =>
    intro i seq k off hoff _
    exact absurd hoff (by simp)
  | cons c0 rest ih =>
    intro i seq k off hoff hlen
    rw [fillUnpaired_cons]
    cases off with
    | zero =>
      simp only [List.getElem?_cons_zero] at hoff
      have hc0 : c0 = '.' := Option.some.inj hoff
      rw [if_pos hc0]
      refine ⟨(select_random_unpaired_base g k).1, ?_, ?_⟩
      · rw [fillUnpaired_lower g rest (i + 1) _ _ (i + 0) (by omega)]
        simpa using List.getElem?_set_self (by simpa using hlen)
      · exact base_mem (g k)
    | succ off =>
      simp only [List.getElem?_cons_succ] at hoff
      have heq : i + (off + 1) = i + 1 + off := by omega
      rw [heq]
      by_cases hc0 : c0 = '.'
      · rw [if_pos hc0]
        exact ih _ _ _ _ hoff (by simpa using (by omega : i + 1 + off < seq.length))
      · rw [if_neg hc0]
        exact ih _ _ _ _ hoff (by omega)

/-! Claim theorems. -/

/-- C1: evaluation of the code on the notation of the claim.  Validation
does return exactly the pairs (0,5) and (1,4) (recorded in closing order),
and the analyzer reports `paired_bases = 4` and `unpaired_bases = 2`; but it
reports `stems = 2` and `internal_loops = 1` where the claim expects
`stems = 1` and `internal_loops = 0`, because the pair list reaches the stem
walk in closing order, never satisfying the stem-extension test. -/
theorem analyzer_hairpin_example_eval :
    (analyze_structure ['(', '(', '.', '.', ')', ')']).valid = true ∧
    (analyze_structure ['(', '(', '.', '.', ')', ')']).stack_trace = [(1, 4), (0, 5)] ∧
    analyze_rna_structure ['(', '(', '.', '.', ')', ')'] = some ⟨6, 4, 2, 1, 1, 0, 2, 0, 0⟩ := by
  decide

/-- C2 counterexample: on the valid notation "((..))" the discovery-ordered
pair list is [(1,4),(0,5)], whose left positions 1,0 are not ascending, so
discovery order does not coincide with left-position-ascending order. -/
theorem discovery_order_not_left_sorted :
    (analyze_structure ['(', '(', '.', '.', ')', ')']).valid = true ∧
    matchPairs ['(', '(', '.', '.', ')', ')'] = [(1, 4), (0, 5)] ∧
    ¬ ((matchPairs ['(', '(', '.', '.', ')', ')']).map Prod.fst).Pairwise (· ≤ ·) := by
  decide

/-- C2 amended: for every string the discovery-ordered pair list is sorted by
closing (right) position strictly ascending — not by left position — and the
analyzer consumes it as produced, without sorting. -/
theorem discovery_order_right_sorted (s : List Char) :
    (matchPairs s).Pairwise fun p q => p.2 < q.2 :=
  matchPairs_rights s

/-- C3: for every valid notation with at least one pair, the analyzer's stems
count equals the number of matched pairs, and the stem-extension condition
fails between every two pairs of the discovery-ordered list (closing
positions strictly increase). -/
theorem stems_count_eq_pair_count (s : List Char)
    (_hv : (analyze_structure s).valid = true) (hne : matchPairs s ≠ []) :
    (analyze_rna_structure s).map Features.stems = some (matchPairs s).length ∧
    (matchPairs s).Pairwise fun p q => ¬ (q.1 = p.1 + 1 ∧ q.2 + 1 = p.2) := by
  have hsne : s ≠ [] := by
    intro h0
    subst h0
    exact hne rfl
  constructor
  · simp only [analyze_rna_structure, if_neg hsne, Option.map_some']
    exact congrArg some (stemsOf_length (matchPairs_rights s))
  · refine (matchPairs_rights s).imp ?_
    intro p q hpq
    omega

theorem stems_count_eq_pair_count_witness :
    (analyze_structure ['(', '(', '.', '.', ')', ')']).valid = true ∧
    matchPairs ['(', '(', '.', '.', ')', ')'] ≠ [] ∧
    ((analyze_rna_structure ['(', '(', '.', '.', ')', ')']).map Features.stems
        = some (matchPairs ['(', '(', '.', '.', ')', ')']).length ∧
      (matchPairs ['(', '(', '.', '.', ')', ')']).Pairwise
        fun p q => ¬ (q.1 = p.1 + 1 ∧ q.2 + 1 = p.2)) :=
  ⟨by decide, by decide, stems_count_eq_pair_count _ (by decide) (by decide)⟩

/-- Invariants the validator guarantees of its recorded pair list: each pair
opens before it closes, no position belongs to two pairs, and any two
distinct pairs are disjoint or one contains the other — never crossing. -/
def PairSetInv (s : List Char) : Prop :=
  (∀ pr ∈ (analyze_structure s).stack_trace, pr.1 < pr.2) ∧
  (posList (analyze_structure s).stack_trace).Nodup ∧
  (∀ p ∈ (analyze_structure s).stack_trace, ∀ q ∈ (analyze_structure s).stack_trace,
    p ≠ q → (p.2 < q.1 ∨ q.2 < p.1) ∨ (q.1 < p.1 ∧ p.2 < q.2) ∨ (p.1 < q.1 ∧ q.2 < p.2))

/-- C4: on every notation the validator accepts, the recorded pair list
satisfies the PairSet invariants. -/
theorem validator_pairset_invariants (s : List Char)
    (_hv : (analyze_structure s).valid = true) : PairSetInv s := by
  have hst : (analyze_structure s).stack_trace = matchPairs s := rfl
  have inv := scan_inv s
  rw [PairSetInv, hst]
  refine ⟨fun pr hpr => (inv.pairs_lt pr hpr).1, inv.flat_nodup, ?_⟩
  have hR : (matchPairs s).Pairwise fun p q =>
      (p.2 < q.1 ∨ q.2 < p.1) ∨ (q.1 < p.1 ∧ p.2 < q.2) ∨ (p.1 < q.1 ∧ q.2 < p.2) := by
    refine inv.nested.imp ?_
    intro p q hpq
    rcases hpq with ⟨h1 | h1, h2⟩
    · exact Or.inr (Or.inl ⟨h1, h2⟩)
    · exact Or.inl (Or.inl h1)
  have hsym : Symmetric (fun p q : Nat × Nat =>
      (p.2 < q.1 ∨ q.2 < p.1) ∨ (q.1 < p.1 ∧ p.2 < q.2) ∨ (p.1 < q.1 ∧ q.2 < p.2)) := by
    intro p q hpq
    tauto
  exact fun p hp q hq hne => List.Pairwise.forall hsym hR hp hq hne

theorem validator_pairset_invariants_witness :
    (analyze_structure ['(', '(', '.', '.', ')', ')']).valid = true ∧
    PairSetInv ['(', '(', '.', '.', ')', ')'] :=
  ⟨by decide, validator_pairset_invariants _ (by decide)⟩

/-- Soundness of a designed sequence for a pattern: same length as the
pattern, every position holds one of the four bases, every matched pair of
the pattern holds one of the policy's complementary pairs, no position
belongs to two pairs, and the paired positions are exactly the non-dot
positions (so no position is written twice and all are covered). -/
def DesignSound (pattern : List Char) (g : Nat → Nat) : Prop :=
  (design_structure pattern g).length = pattern.length ∧
  (∀ p, p < pattern.length →
    ∃ c, (design_structure pattern g)[p]? = some c ∧ c ∈ UNPAIRED_BASES) ∧
  (∀ pr ∈ matchPairs pattern, ∃ c d,
    (design_structure pattern g)[pr.1]? = some c ∧
    (design_structure pattern g)[pr.2]? = some d ∧
    (c, d) ∈ BASE_PAIRS.map Prod.fst) ∧
  (posList (matchPairs pattern)).Nodup ∧
  (∀ p, p < pattern.length →
    (p ∈ posList (matchPairs pattern) ↔ pattern[p]? ≠ some '.'))

/-- C5: for every notation the designer's own validation accepts, the
designed sequence is sound in the sense of `DesignSound`. -/
theorem designer_round_trip (pattern : List Char) (g : Nat → Nat)
    (h : checkPattern pattern [] = none) : DesignSound pattern g := by
  obtain ⟨hstack, huc, halpha⟩ := checkPattern_ok pattern h
  have inv := scan_inv pattern
  have hcov := valid_coverage pattern halpha hstack huc
  have hrep : (List.replicate pattern.length 'N').length = pattern.length :=
    List.length_replicate _ _
  have hbound : ∀ pr ∈ matchPairs pattern,
      pr.1 < pr.2 ∧ pr.2 < (List.replicate pattern.length 'N').length := by
    intro pr hpr
    rw [hrep]
    exact inv.pairs_lt pr hpr
  have hdesign : design_structure pattern g =
      fillUnpaired g pattern 0
        (fillPairs g (matchPairs pattern) (List.replicate pattern.length 'N') 0).1
        (fillPairs g (matchPairs pattern) (List.replicate pattern.length 'N') 0).2 := rfl
  have hfplen : (fillPairs g (matchPairs pattern)
      (List.replicate pattern.length 'N') 0).1.length = pattern.length := by
    rw [fillPairs_length, hrep]
  have hsound := fillPairs_sound g (matchPairs pattern)
    (List.replicate pattern.length 'N') 0 inv.flat_nodup hbound
  have htransfer : ∀ t : Nat, pattern[t]? = some '(' ∨ pattern[t]? = some ')' →
      (design_structure pattern g)[t]? =
        (fillPairs g (matchPairs pattern) (List.replicate pattern.length 'N') 0).1[t]? := by
    intro t hch
    rw [hdesign]
    have h0t : (0 : Nat) + t = t := Nat.zero_add t
    rcases hch with hch | hch
    · have := fillUnpaired_nondot g pattern 0
        (fillPairs g (matchPairs pattern) (List.replicate pattern.length 'N') 0).1
        (fillPairs g (matchPairs pattern) (List.replicate pattern.length 'N') 0).2
        t '(' hch (by decide)
      rwa [h0t] at this
    · have := fillUnpaired_nondot g pattern 0
        (fillPairs g (matchPairs pattern) (List.replicate pattern.length 'N') 0).1
        (fillPairs g (matchPairs pattern) (List.replicate pattern.length 'N') 0).2
        t ')' hch (by decide)
      rwa [h0t] at this
  have hpairs : ∀ pr ∈ matchPairs pattern, ∃ c d,
      (design_structure pattern g)[pr.1]? = some c ∧
      (design_structure pattern g)[pr.2]? = some d ∧
      (c, d) ∈ BASE_PAIRS.map Prod.fst := by
    intro pr hpr
    obtain ⟨c, d, hc, hd, hmem⟩ := hsound pr hpr
    refine ⟨c, d, ?_, ?_, hmem⟩
    · rw [htransfer pr.1 (Or.inl (inv.pairs_chars pr hpr).1)]
      exact hc
    · rw [htransfer pr.2 (Or.inr (inv.pairs_chars pr hpr).2)]
      exact hd
  refine ⟨?_, ?_, hpairs, inv.flat_nodup, hcov⟩
  · rw [hdesign, fillUnpaired_length, hfplen]
  · intro p hp
    have hsome : pattern[p]? = some pattern[p] := List.getElem?_eq_getElem hp
    rcases halpha pattern[p] (List.getElem_mem hp) with hdot | hop | hcl
    · rw [hdot] at hsome
      rw [hdesign]
      have := fillUnpaired_dot g pattern 0
        (fillPairs g (matchPairs pattern) (List.replicate pattern.length 'N') 0).1
        (fillPairs g (matchPairs pattern) (List.replicate pattern.length 'N') 0).2
        p hsome (by rw [hfplen]; omega)
      rw [Nat.zero_add] at this
      obtain ⟨c, hc, hcm⟩ := this
      exact ⟨c, hc, hcm⟩
    · rw [hop] at hsome
      rcases inv.cov_open p hp hsome with hst | hlefts
      · rw [hstack] at hst
        exact absurd hst (List.not_mem_nil p)
      · obtain ⟨pr, hpr, hpr1⟩ := List.mem_map.mp hlefts
        obtain ⟨c, d, hc, _, hmem⟩ := hpairs pr hpr
        rw [hpr1] at hc
        exact ⟨c, hc, (base_pair_chars hmem).1⟩
    · rw [hcl] at hsome
      rcases inv.cov_close p hp hsome with hrights | hucm
      · obtain ⟨pr, hpr, hpr2⟩ := List.mem_map.mp hrights
        obtain ⟨c, d, _, hd, hmem⟩ := hpairs pr hpr
        rw [hpr2] at hd
        exact ⟨d, hd, (base_pair_chars hmem).2⟩
      · rw [huc] at hucm
        exact absurd hucm (List.not_mem_nil p)

theorem designer_round_trip_witness :
    checkPattern ['(', '(', '.', '.', ')', ')'] [] = none ∧
    DesignSound ['(', '(', '.', '.', ')', ')'] (fun _ => 0) :=
  ⟨by decide, designer_round_trip _ _ (by decide)⟩

/-- C6: the metadata's GC-content is the unguarded quotient
(count G + count C) / length, so on the length-0 sequence produced from the
empty notation the code faults (embedded as `none`) instead of reporting 0;
on a non-empty sequence the quotient is defined and matches the formula. -/
theorem gc_content_zero_length_faults :
    (get_structure_info [] (design_structure [] fun _ => 0)).gc_content = none ∧
    (get_structure_info ['(', '(', '.', '.', ')', ')']
        (design_structure ['(', '(', '.', '.', ')', ')'] fun _ => 0)).gc_content
      = some (2 / 3 : ℚ) := by
  constructor
  · rfl
  · rw [show design_structure ['(', '(', '.', '.', ')', ')'] (fun _ => 0)
        = ['G', 'G', 'A', 'A', 'C', 'C'] from by decide]
    have h1 : (['G', 'G', 'A', 'A', 'C', 'C'] : List Char).count 'G' = 2 := by decide
    have h2 : (['G', 'G', 'A', 'A', 'C', 'C'] : List Char).count 'C' = 2 := by decide
    simp only [get_structure_info, h1, h2, List.length_cons, List.length_nil]
    norm_num

/-- C7: on the valid one-pair notation "()" the designer's metadata reports
`paired_positions = 0` — it counts `'('` in the designed base sequence —
while the number of paired positions, twice the pair count, is 2. -/
theorem paired_positions_miscount :
    (analyze_structure ['(', ')']).valid = true ∧
    2 * (matchPairs ['(', ')']).length = 2 ∧
    (get_structure_info ['(', ')']
        (design_structure ['(', ')'] fun _ => 0)).paired_positions = 0 := by
  refine ⟨by decide, by decide, ?_⟩
  rw [show design_structure ['(', ')'] (fun _ => 0) = ['G', 'C'] from by decide]
  rfl

/-- C8 counterexample: the complete validation output for "(x)" carries the
offending symbol but no position: the designer's check raises an error whose
only payload is the character 'x', and the diagnostic validator's sole issue
is the set of invalid characters, with no index recorded anywhere. -/
theorem invalid_symbol_error_lacks_position :
    checkPattern ['(', 'x', ')'] [] = some (DesignError.invalidChar 'x') ∧
    (analyze_structure ['(', 'x', ')']).valid = false ∧
    (analyze_structure ['(', 'x', ')']).issues = [Issue.invalidChars ['x']] ∧
    (analyze_structure ['(', 'x', ')']).stack_trace = [(0, 2)] := by
  decide

/-- C8 amended: any string containing a character outside the three-symbol
alphabet fails validation; the designer's scan raises a structured error, and
the diagnostic validator marks the input invalid, its issue carrying the
offending characters but no position. -/
theorem invalid_symbol_reported_without_position (s : List Char)
    (h : ∃ c ∈ s, ¬ (c = '.' ∨ c = '(' ∨ c = ')')) :
    (∃ e, checkPattern s [] = some e) ∧
    (analyze_structure s).valid = false ∧
    Issue.invalidChars (invalidCharsOf s) ∈ (analyze_structure s).issues := by
  obtain ⟨c, hc, hbad⟩ := h
  have hinv_ne : invalidCharsOf s ≠ [] := by
    intro h0
    exact hbad (invalidCharsOf_eq_nil s h0 c hc)
  have hE : (invalidCharsOf s).isEmpty = false := by
    rw [Bool.eq_false_iff]
    intro hemp
    exact hinv_ne (List.isEmpty_iff.mp hemp)
  refine ⟨checkPattern_fails s [] ⟨c, hc, hbad⟩, ?_, ?_⟩
  · rw [Bool.eq_false_iff]
    intro hvalid
    exact hinv_ne ((valid_iff s).mp hvalid).1
  · simp only [analyze_structure]
    rw [hE]
    simp

theorem invalid_symbol_reported_without_position_witness :
    (∃ c ∈ ['(', 'x', ')'], ¬ (c = '.' ∨ c = '(' ∨ c = ')')) ∧
    ((∃ e, checkPattern ['(', 'x', ')'] [] = some e) ∧
      (analyze_structure ['(', 'x', ')']).valid = false ∧
      Issue.invalidChars (invalidCharsOf ['(', 'x', ')'])
        ∈ (analyze_structure ['(', 'x', ')']).issues) :=
  ⟨by decide, invalid_symbol_reported_without_position _ (by decide)⟩

/-- Recognizer for unmatched-close issues. -/
def isUnmatchedClose : Issue → Bool
  | Issue.unmatchedClose _ => true
  | _ => false

/-- C9: the diagnostic validator keeps scanning after an unmatched close:
whenever any unmatched closes exist the result is invalid, the
unmatched-close issues in the issue list are exactly one per unmatched
closing bracket, in scan order, each carrying its position, and when opens
are left over the issue list also holds the unmatched-open issue listing
their positions. -/
theorem diagnostic_reports_all_unmatched_closes (s : List Char)
    (h : unmatchedCloses s ≠ []) :
    (analyze_structure s).valid = false ∧
    (analyze_structure s).issues.filter isUnmatchedClose
      = (unmatchedCloses s).map Issue.unmatchedClose ∧
    (finalStack s ≠ [] →
      Issue.unmatchedOpen (finalStack s).reverse ∈ (analyze_structure s).issues) := by
  refine ⟨?_, ?_, ?_⟩
  · rw [Bool.eq_false_iff]
    intro hvalid
    exact h ((valid_iff s).mp hvalid).2.1
  · simp only [analyze_structure, unmatchedCloses, List.filter_append]
    have hB : ((scanLoop s 0 [] [] []).2.2.map Issue.unmatchedClose).filter isUnmatchedClose
        = (scanLoop s 0 [] [] []).2.2.map Issue.unmatchedClose := by
      rw [List.filter_map]
      have : (isUnmatchedClose ∘ Issue.unmatchedClose) = fun _ => true := by
        funext x
        rfl
      rw [this, List.filter_true]
    rw [hB]
    split_ifs <;> simp [isUnmatchedClose]
  · intro hst
    have hE : (scanLoop s 0 [] [] []).1.isEmpty = false := by
      rw [Bool.eq_false_iff]
      intro hemp
      exact hst (List.isEmpty_iff.mp hemp)
    simp only [analyze_structure, finalStack]
    rw [hE]
    simp

theorem diagnostic_reports_all_unmatched_closes_witness :
    unmatchedCloses [')', ')', '('] ≠ [] ∧
    ((analyze_structure [')', ')', '(']).valid = false ∧
      (analyze_structure [')', ')', '(']).issues.filter isUnmatchedClose
        = (unmatchedCloses [')', ')', '(']).map Issue.unmatchedClose ∧
      (finalStack [')', ')', '('] ≠ [] →
        Issue.unmatchedOpen (finalStack [')', ')', '(']).reverse
          ∈ (analyze_structure [')', ')', '(']).issues)) :=
  ⟨by decide, diagnostic_reports_all_unmatched_closes _ (by decide)⟩

/-- C10: the designed sequence is a function of the notation and the stream
of random draws alone: two design calls over the same valid notation whose
random sources return the same draws produce identical sequences. -/
theorem design_deterministic_in_rng (pattern : List Char) (g1 g2 : Nat → Nat)
    (_hvalid : checkPattern pattern [] = none) (h : ∀ n, g1 n = g2 n) :
    design_structure pattern g1 = design_structure pattern g2 := by
  have hg : g1 = g2 := funext h
  rw [hg]

theorem design_deterministic_in_rng_witness :
    checkPattern ['(', '.', ')'] [] = none ∧
    (∀ n : Nat, (fun n => n + 0) n = (fun n => 0 + n) n) ∧
    design_structure ['(', '.', ')'] (fun n => n + 0)
      = design_structure ['(', '.', ')'] (fun n => 0 + n) :=
  ⟨by decide, fun n => by show n + 0 = 0 + n; omega,
    design_deterministic_in_rng _ _ _ (by decide) (fun n => by show n + 0 = 0 + n; omega)⟩

end RnaGadget
